import Mathlib

/-!
Verification of the slime_seed_finder biome-layer core.

This file gives a shallow embedding, in Lean 4, of the parts of the
repository (src/biome_layers.rs, src/java_rng.rs) that the checked
claims are about, and proves or refutes each claim.

Conventions of the embedding:
* Rust `u64` values are represented as `Nat`, with `% 2 ^ 64` applied
  exactly where the Rust code performs wrapping arithmetic, and
  `&&& mask 48` where the code masks to 48 bits.
* Rust `i64` / `i32` quantities that are used as signed numbers are
  represented as `Int`; casts between signed and unsigned widths are
  made explicit (`sxt32`, `toSigned32`).
* Rust `i64` division (which truncates) is `Int.tdiv` / `Int.tmod`;
  arithmetic shift right is Euclidean division by a power of two.
* A dense map (`Map` in the source, an `ndarray::Array2<i32>` plus its
  origin) is a record of origin, dimensions, and a total cell function;
  array indexing in loops becomes evaluation of the cell function, and
  claims about "no out-of-bounds indexing" become explicit bound
  side-conditions proved in the theorems.
* Fallible code (`Result<Map, ()>`) returns `Option`.
* Code of this repository that is not under src/ (mc_rng.rs,
  biome_info.rs, seed_info.rs) is modelled from the specification, in
  definitions whose doc comments start with "Modelled from the spec:".
-/

namespace SlimeSeed

/-! ### Area and Map (src/biome_layers.rs lines 36-97) -/

/-- A world point, `seed_info::Point = (i64, i64)`. -/
abbrev Point := Int × Int

/-- Embedding of `struct Area { x: i64, z: i64, w: u64, h: u64 }`. -/
structure Area where
  x : Int
  z : Int
  w : Nat
  h : Nat
  deriving DecidableEq, Repr

/-- The two's-complement wrap of a mathematical integer into the `i64`
range `[-2^63, 2^63)`: the value stored by a chain of wrapping `i64`
operations whose exact result is `v`. -/
def wrap64 (v : Int) : Int := (v + 2 ^ 63) % 2 ^ 64 - 2 ^ 63

/-- The `u64 -> i64` cast: reinterpret the low 64 bits as a signed
two's-complement value. -/
def toSigned64 (w : Nat) : Int :=
  if w % 2 ^ 64 < 2 ^ 63 then ((w % 2 ^ 64 : Nat) : Int)
  else ((w % 2 ^ 64 : Nat) : Int) - 2 ^ 64

/-- Embedding of `Area::contains`: true if (x, z) is inside this area.
The upper bounds are `self.x + self.w as i64` and `self.z + self.h as i64`,
i.e. a `u64 -> i64` bit cast followed by a two's-complement `i64`
addition, both of which can wrap. -/
def Area.contains (a : Area) (x z : Int) : Bool :=
  x ≥ a.x && x < wrap64 (a.x + toSigned64 a.w) &&
    z ≥ a.z && z < wrap64 (a.z + toSigned64 a.h)

/-- The `for &(x, z) in c` loop of `Area::from_coords`: fold running
minima and maxima of both coordinates over the remaining points. -/
def foldMinMax : List Point → Int → Int → Int → Int → Int × Int × Int × Int
  | [], xMin, zMin, xMax, zMax => (xMin, zMin, xMax, zMax)
  | (x, z) :: c, xMin, zMin, xMax, zMax =>
      foldMinMax c (min xMin x) (min zMin z) (max xMax x) (max zMax z)

/-- Embedding of `Area::from_coords`: the smallest area that contains
all the coords, `{0, 0, 0, 0}` on an empty collection.
`(x_max - x_min + 1) as u64` is a chain of wrapping `i64` operations
followed by a `i64 -> u64` bit cast; the resulting `u64` is the exact
difference reduced modulo `2^64` (intermediate wraps only ever drop
multiples of `2^64`). -/
def Area.from_coords : List Point → Area
  | [] => { x := 0, z := 0, w := 0, h := 0 }
  | c0 :: c =>
      let r := foldMinMax c c0.1 c0.2 c0.1 c0.2
      { x := r.1, z := r.2.1,
        w := ((r.2.2.1 - r.1 + 1) % (2 ^ 64 : Int)).toNat,
        h := ((r.2.2.2 - r.2.1 + 1) % (2 ^ 64 : Int)).toNat }

/-! ### Treasure-map colour variants (src/biome_layers.rs lines 3918-4032) -/

/-- Embedding of `static TREASURE_MAP_COLORS: [u32; 64]`. -/
def TREASURE_MAP_COLORS : List Nat :=
  [0x000000, 0x7FB238, 0xF7E9A3, 0xC7C7C7, 0xFF0000, 0xA0A0FF, 0xA7A7A7,
   0x007C00, 0xFFFFFF, 0xA4A8B8, 0x976D4D, 0x707070, 0x4040FF, 0x8F7748,
   0xFFFCF5, 0xD87F33, 0xB24CD8, 0x6699D8, 0xE5E533, 0x7FCC19, 0xF27FA5,
   0x4C4C4C, 0x999999, 0x4C7F99, 0x7F3FB2, 0x334CB2, 0x664C33, 0x667F33,
   0x993333, 0x191919, 0xFAEE4D, 0x5CDBD5, 0x4A80FF, 0x00D93A, 0x815631,
   0x700200, 0xD1B1A1, 0x9F5224, 0x95576C, 0x706C8A, 0xBA8524, 0x677535,
   0xA04D4E, 0x392923, 0x876B62, 0x575C5C, 0x7A4958, 0x4C3E5C, 0x4C3223,
   0x4C522A, 0x8E3C2E, 0x251610, 0x000000, 0x000000, 0x000000, 0x000000,
   0x000000, 0x000000, 0x000000, 0x000000, 0x000000, 0x000000, 0x000000,
   0x000000]

/-- Embedding of `color_variant_channel(channel: u8, variant: u8) -> u8`.
The arithmetic is performed in `u16`; for `channel ≤ 255` and
`variant ≤ 3` no `u16` step can wrap (max is `255 * 255 + 128`), so
plain `Nat` arithmetic is exact, and the final `as u8` cast is `% 256`. -/
def color_variant_channel (channel variant : Nat) : Nat :=
  let x := channel
  let x := x * ([180, 220, 255, 135].getD variant 0)
  -- Round to nearest integer
  let x := x + 128
  let x := x / 256
  x % 256

/-- Embedding of `color_variant`: apply the channel scaling to r, g, b. -/
def color_variant (r g b variant : Nat) : Nat × Nat × Nat :=
  (color_variant_channel r variant,
   color_variant_channel g variant,
   color_variant_channel b variant)

/-- Embedding of `treasure_map_to_color(id: i32) -> [u8; 4]` for
nonnegative ids (the treasure-map rasteriser only produces color indices
in [0, 255]). -/
def treasure_map_to_color (id : Nat) : List Nat :=
  let id' := id / 4
  let variant := id % 4
  -- Fake transparent map: color id 0 is rendered as a map-like beige
  let rgb := if id' = 0 then 0xDBC6AC else TREASURE_MAP_COLORS.getD id' 0
  let b := rgb % 256
  let rg := rgb / 256
  let g := rg % 256
  let r := (rg / 256) % 256
  let c := color_variant r g b variant
  [c.1, c.2.1, c.2.2, 255]

end SlimeSeed

namespace SlimeSeed.JavaRng

/-! ### The Java LCG (src/java_rng.rs)

The `JavaRng` struct holds a single `u64` seed; we pass that seed
explicitly.  `u64` values are `Nat` and every wrapping operation is
followed by `% 2 ^ 64`; `& mask(48)` is `&&& mask 48`. -/

/-- Embedding of `lcg_const::A`. -/
def A : Nat := 0x5DEECE66D

/-- Embedding of `lcg_const::C`. -/
def C : Nat := 0xB

/-- Embedding of `lcg_const_extra::INV_A`. -/
def INV_A : Nat := 0xdfe05bcb1365

/-- Embedding of `lcg_const_extra::INV_A_1`. -/
def INV_A_1 : Nat := 18698324575379

/-- Embedding of `lcg_const_extra::INV__INV_A__1`. -/
def INV__INV_A__1 : Nat := 192407907957609

/-- Embedding of `mask(n) = (1 << n) - 1`. -/
def mask (n : Nat) : Nat := (1 <<< n) - 1

/-- The `u64::wrapping_sub` operation on 64-bit patterns. -/
def wrapping_sub64 (a b : Nat) : Nat := (a + (2 ^ 64 - b % 2 ^ 64)) % 2 ^ 64

/-- Reinterpret the low 32 bits of a `Nat` as a signed `i32`
(`as i32` on a value already reduced to a 32-bit pattern). -/
def toSigned32 (x : Nat) : Int :=
  if x % 2 ^ 32 < 2 ^ 31 then (x % 2 ^ 32 : Nat) else (x % 2 ^ 32 : Nat) - 2 ^ 32

/-- Truncating cast `i64 -> i32`: keep the low 32 bits, reinterpret. -/
def i64_as_i32 (l : Int) : Int := toSigned32 (l % (2 ^ 32 : Int)).toNat

/-- Embedding of `JavaRng::next_state`: `s * A + C` (wrapping). -/
def next_state (s : Nat) : Nat := (s * A + C) % 2 ^ 64

/-- Embedding of `JavaRng::previous_state`:
`(s - C) * INV_A (wrapping) & mask(48)`. -/
def previous_state (s : Nat) : Nat :=
  (wrapping_sub64 s C * INV_A) % 2 ^ 64 &&& mask 48

/-- Embedding of `JavaRng::get_seed`. -/
def get_seed (s : Nat) : Nat := (s ^^^ A) &&& mask 48

/-- Embedding of `JavaRng::next(bits)`: advance the state and return the
top `bits` bits of the 48-bit state as a (sign-extended) `i32`,
together with the new state. -/
def next (bits : Nat) (s : Nat) : Int × Nat :=
  let s2 := next_state s
  (toSigned32 ((s2 &&& mask 48) >>> (48 - bits)), s2)

/-- Embedding of `JavaRng::next_long` interpreted through the `as u64`
cast used by `extend_long_48`: the 64-bit pattern of
`((next(32) as i64) << 32) + next(32)`, together with the final state. -/
def next_long_u64 (s : Nat) : Nat × Nat :=
  let p := next 32 s
  let q := next 32 p.2
  (((p.1 * 2 ^ 32 + q.1) % (2 ^ 64 : Int)).toNat, q.2)

/-- Embedding of `JavaRng::i1_from_long`: `l as i32`. -/
def i1_from_long (l : Int) : Int := i64_as_i32 l

/-- Embedding of `JavaRng::i0_from_long`:
`((l >> 32) + ((l >> 31) & 1)) as i32`. -/
def i0_from_long (l : Int) : Int := i64_as_i32 (l / 2 ^ 32 + (l / 2 ^ 31) % 2)

/-- Embedding of `JavaRng::previous_verify_16(target: u16) -> u32`. -/
def previous_verify_16 (s : Nat) (target : Nat) : Nat :=
  let p1 := previous_state s % 2 ^ 16
  let p := (target <<< 16) ||| p1
  let p2 := (p * (A &&& mask 32) + C) % 2 ^ 32
  p2 ^^^ (s % 2 ^ 32)

/-- Embedding of `JavaRng::extend_long_48`: enumerate the `u64` values
`v` with `v = r.next_long()` for some state `r` and `low48(v) = l`. -/
def extend_long_48 (l : Nat) : List Nat :=
  let l := l &&& mask 48
  let i1 : Int := i1_from_long (l : Int)
  let i0 : Nat := (i0_from_long (l : Int) % (2 ^ 16 : Int)).toNat
  let seed : Nat := ((i1 % (2 ^ 32 : Int)).toNat <<< 16) &&& mask 48
  (((List.range 0x10000).map fun k0 => seed ||| k0).filter
      fun r => previous_verify_16 r i0 = 0).map
    fun r => (next_long_u64 (previous_state (previous_state r))).1

/-- Embedding of the binary-exponentiation loop of `pow_wrapping`
(base and accumulator are squared / multiplied with `u64` wrapping). -/
def pow_wrapping_aux (acc base exp : Nat) : Nat :=
  if 1 < exp then
    pow_wrapping_aux (if exp % 2 = 1 then acc * base % 2 ^ 64 else acc)
      (base * base % 2 ^ 64) (exp / 2)
  else if exp = 1 then acc * base % 2 ^ 64 else acc
termination_by exp
decreasing_by omega

/-- Embedding of `pow_wrapping(base, exp)`: `base ^ exp (mod 2^64)`. -/
def pow_wrapping (base exp : Nat) : Nat := pow_wrapping_aux 1 base exp

/-- Embedding of `JavaRng::next_n_calls(n)`; equivalent to `n` calls to
`next`.  `n = 1` runs `self.next(0)`, whose only effect on the state is
one `next_state` step. -/
def next_n_calls (n : Nat) (s : Nat) : Nat :=
  if n = 0 then s
  else if n = 1 then next_state s
  else
    let c := C
    let a := A
    -- Modular multiplicative inverse of a-1
    let a_1_inv := INV_A_1
    let an := pow_wrapping a n
    -- a % 4 == 1, so (a^n - 1) % 4 == 0
    let aes := (an - 1) >>> 2 * a_1_inv % 2 ^ 64
    let caa := c * aes % 2 ^ 64
    (s * an % 2 ^ 64 + caa) % 2 ^ 64

/-- Embedding of `JavaRng::previous_2`: two inverse steps fused, with
no 48-bit mask applied (unlike `previous_state`). -/
def previous_2 (s : Nat) : Nat :=
  (wrapping_sub64 (wrapping_sub64 s C * INV_A % 2 ^ 64) C * INV_A) % 2 ^ 64

/-- Embedding of `JavaRng::previous_n_calls(n)`. -/
def previous_n_calls (n : Nat) (s : Nat) : Nat :=
  if n = 0 then s
  else if n = 1 then previous_state s
  else if n = 2 then previous_2 s
  else
    let c := C
    let d := INV_A
    -- Modular multiplicative inverse of d-1
    let d_1_inv := INV__INV_A__1
    let dn := pow_wrapping d n
    let des := (dn - 1) >>> 2 * d_1_inv % 2 ^ 64
    let cdd := c * d % 2 ^ 64 * des % 2 ^ 64
    wrapping_sub64 (s * dn % 2 ^ 64) cdd

/-! #### next_int_n and the dedicated n = 10 path (C5)

The two rejection-sampling loops are embedded with explicit fuel;
`none` means the fuel ran out before a draw was accepted. -/

/-- Embedding of `JavaRng::next_int_n_10`: draw `next(31)` until the
draw is below the reject limit `(1u32 << 31) / 10 * 10`, then return
`bits % 10` and the final state. -/
def next_int_n_10 (fuel : Nat) (s : Nat) : Option (Int × Nat) :=
  match fuel with
  | 0 => none
  | fuel + 1 =>
      let r := next 31 s
      let bits := r.1
      let limit : Nat := (1 <<< 31) / 10 * 10 -- last multiple of 10 < 2^31
      if bits < (limit : Int) then some (bits.tmod 10, r.2)
      else next_int_n_10 fuel r.2

/-- The generic non-power-of-two rejection-sampling loop of
`JavaRng::next_int_n`: draw `next(31)`, compute `val = bits % n`, and
accept when `bits.wrapping_sub(val).wrapping_add(n - 1) >= 0` as `i32`. -/
def next_int_n_generic (n : Int) (fuel : Nat) (s : Nat) : Option (Int × Nat) :=
  match fuel with
  | 0 => none
  | fuel + 1 =>
      let r := next 31 s
      let bits := r.1
      let val := bits.tmod n
      -- Check for modulo bias
      if 0 ≤ toSigned32 ((bits - val + (n - 1)) % (2 ^ 32 : Int)).toNat then
        some (val, r.2)
      else next_int_n_generic n fuel r.2

/-- Embedding of `JavaRng::next_int_n(n)`: dispatch to the dedicated
`n = 10` path, panic (`none`) on `n ≤ 0`, single shifted multiply for
powers of two, and the generic rejection loop otherwise.  The i32
power-of-two test `(n & -n) == n` is taken on the 32-bit patterns. -/
def next_int_n (n : Int) (fuel : Nat) (s : Nat) : Option (Int × Nat) :=
  if n = 10 then next_int_n_10 fuel s
  else if ¬n > 0 then none
  else
    let nu := (n % (2 ^ 32 : Int)).toNat
    let negu := ((-n) % (2 ^ 32 : Int)).toNat
    -- If n is a power of 2
    if nu &&& negu = nu then
      let r := next 31 s
      some (i64_as_i32 (n * r.1 / 2 ^ 31), r.2)
    else next_int_n_generic n fuel s

end SlimeSeed.JavaRng

namespace SlimeSeed.JavaRng

/-! ### Basic facts about the LCG embedding -/

theorem mask_eq_pow_sub_one (n : Nat) : mask n = 2 ^ n - 1 := by
  simp [mask, Nat.shiftLeft_eq]

theorem land_mask (x n : Nat) : x &&& mask n = x % 2 ^ n := by
  rw [mask_eq_pow_sub_one]; exact Nat.and_pow_two_sub_one_eq_mod x n

theorem toSigned32_of_lt {x : Nat} (h : x < 2 ^ 31) : toSigned32 x = x := by
  unfold toSigned32
  rw [Nat.mod_eq_of_lt (show x < 2 ^ 32 by omega), if_pos h]

/-- The value drawn by `next(31)` is a nonnegative 31-bit integer. -/
theorem next31_bounds (s : Nat) : 0 ≤ (next 31 s).1 ∧ (next 31 s).1 < 2 ^ 31 := by
  have hx : (next_state s &&& mask 48) >>> (48 - 31) < 2 ^ 31 := by
    rw [land_mask, Nat.shiftRight_eq_div_pow]
    have : next_state s % 2 ^ 48 < 2 ^ 48 := Nat.mod_lt _ (by norm_num)
    omega
  have : (next 31 s).1 = ((next_state s &&& mask 48) >>> (48 - 31) : Nat) := by
    simp only [next]
    exact toSigned32_of_lt hx
  rw [this]
  exact ⟨Int.natCast_nonneg _, by exact_mod_cast hx⟩

/-- Accepting a draw below `2147483640` is the same test as the generic
wrapping-i32 modulo-bias check at `n = 10`. -/
theorem reject_condition_equiv (b : Int) (h0 : 0 ≤ b) (h1 : b < 2 ^ 31) :
    (b < ((2147483640 : Nat) : Int)) ↔
      0 ≤ toSigned32 ((b - b.tmod 10 + (10 - 1)) % (2 ^ 32 : Int)).toNat := by
  have htm : b.tmod 10 = b % 10 := Int.tmod_eq_emod h0 (by norm_num)
  rw [htm]
  have h2 : 0 ≤ b % 10 := Int.emod_nonneg b (by norm_num)
  have h3 : b % 10 < 10 := Int.emod_lt_of_pos b (by norm_num)
  have hx0 : 0 ≤ b - b % 10 + (10 - 1) := by omega
  have hx1 : b - b % 10 + (10 - 1) < 2 ^ 32 := by omega
  rw [Int.emod_eq_of_lt hx0 hx1]
  unfold toSigned32
  rw [Nat.mod_eq_of_lt (show (b - b % 10 + (10 - 1)).toNat < 2 ^ 32 by omega)]
  split
  · rename_i hlt
    exact ⟨fun _ => Int.natCast_nonneg _, fun _ => by omega⟩
  · rename_i hge
    constructor
    · intro hb; exfalso; omega
    · intro hcc; exfalso; omega

/-- The `n = 10` loop agrees with the generic rejection loop step by step. -/
theorem next_int_n_10_eq_generic (fuel : Nat) :
    ∀ s, next_int_n_10 fuel s = next_int_n_generic 10 fuel s := by
  induction fuel with
  | zero => intro s; rfl
  | succ m ih =>
      intro s
      simp only [next_int_n_10, next_int_n_generic]
      obtain ⟨h0, h1⟩ := next31_bounds s
      have hlim : ((1 <<< 31) / 10 * 10 : Nat) = 2147483640 := by decide
      rw [hlim]
      by_cases hc : (next 31 s).1 < ((2147483640 : Nat) : Int)
      · rw [if_pos hc,
          if_pos (((reject_condition_equiv _ h0 h1).mp hc))]
      · rw [if_neg hc,
          if_neg (fun hcc => hc ((reject_condition_equiv _ h0 h1).mpr hcc)), ih]

/-- C5.  `JavaRng::next_int_n(10)` dispatches to the dedicated
`next_int_n_10` path; that path's reject limit `(1u32 << 31) / 10 * 10`
equals `2_147_483_640`, which is the last multiple of 10 below `2^31`;
and for every starting state (and fuel) the dedicated path returns the
same value and leaves the generator in the same final state as the
generic non-power-of-two rejection-sampling path run at `n = 10`. -/
theorem next_int_n_10_dispatch_and_refines :
    (∀ fuel s, next_int_n 10 fuel s = next_int_n_10 fuel s) ∧
    (∀ fuel s, next_int_n_10 fuel s = next_int_n_generic 10 fuel s) ∧
    ((1 <<< 31) / 10 * 10 : Nat) = 2147483640 ∧
    2147483640 % 10 = 0 ∧ 2147483640 < 2 ^ 31 ∧
    (∀ m : Nat, m % 10 = 0 → 2147483640 < m → 2 ^ 31 ≤ m) := by
  refine ⟨fun fuel s => by simp [next_int_n],
    fun fuel s => next_int_n_10_eq_generic fuel s, by decide, by decide, by decide, ?_⟩
  intro m h1 h2
  omega

end SlimeSeed.JavaRng

namespace SlimeSeed.JavaRng

/-! ### C4: advance_by and rewind_by

The closed forms in `next_n_calls` / `previous_n_calls` are related to
plain iteration of `next_state` / `previous_state` through geometric
sums, working modulo `2 ^ 48` (only the low 48 bits of the seed are
observable through `get_seed`). -/

theorem pow_wrapping_aux_eq (exp : Nat) : ∀ acc base, acc < 2 ^ 64 → base < 2 ^ 64 →
    pow_wrapping_aux acc base exp = acc * base ^ exp % 2 ^ 64 := by
  induction exp using Nat.strong_induction_on with
  | _ exp ih =>
    intro acc base hacc hbase
    rw [pow_wrapping_aux]
    split
    · rename_i hgt
      rw [ih (exp / 2) (by omega) _ _
        (by split <;> [exact Nat.mod_lt _ (by norm_num); exact hacc])
        (Nat.mod_lt _ (by norm_num))]
      show _ ≡ _ [MOD 2 ^ 64]
      have hbb : (base * base % 2 ^ 64 : Nat) ^ (exp / 2) ≡ (base * base) ^ (exp / 2)
          [MOD 2 ^ 64] := (Nat.mod_modEq _ _).pow _
      have hsq : base * base = base ^ 2 := (sq base).symm
      by_cases hpar : exp % 2 = 1
      · rw [if_pos hpar]
        calc acc * base % 2 ^ 64 * (base * base % 2 ^ 64) ^ (exp / 2)
            ≡ acc * base * (base * base) ^ (exp / 2) [MOD 2 ^ 64] :=
              (Nat.mod_modEq _ _).mul hbb
          _ = acc * base ^ exp := by
              rw [hsq, ← pow_mul, mul_assoc, ← pow_succ']
              congr 2
              omega
      · rw [if_neg hpar]
        calc acc * (base * base % 2 ^ 64) ^ (exp / 2)
            ≡ acc * (base * base) ^ (exp / 2) [MOD 2 ^ 64] :=
              (Nat.ModEq.refl acc).mul hbb
          _ = acc * base ^ exp := by
              rw [hsq, ← pow_mul]
              congr 2
              omega
    · split
      · rename_i h1
        rw [h1, pow_one]
      · rename_i hle h1
        have h0 : exp = 0 := by omega
        rw [h0, pow_zero, mul_one, Nat.mod_eq_of_lt hacc]

theorem pow_wrapping_eq (base exp : Nat) (hbase : base < 2 ^ 64) :
    pow_wrapping base exp = base ^ exp % 2 ^ 64 := by
  rw [pow_wrapping, pow_wrapping_aux_eq exp 1 base (by norm_num) hbase, one_mul]

/-- Geometric sum `1 + x + ... + x^(n-1)` in Horner form; this is the
exact value whose residue the `aes` / `des` computations recover. -/
def geomSum (x : Nat) : Nat → Nat
  | 0 => 0
  | n + 1 => geomSum x n * x + 1

theorem geomSum_mul (x : Nat) (hx : 1 ≤ x) (n : Nat) :
    (x - 1) * geomSum x n + 1 = x ^ n := by
  induction n with
  | zero => simp [geomSum]
  | succ n ih =>
      have hx' : (1 : Int) ≤ (x : Int) := by exact_mod_cast hx
      have ihz : ((x : Int) - 1) * (geomSum x n : Int) + 1 = (x : Int) ^ n := by
        zify [hx] at ih
        exact ih
      have : ((x : Int) - 1) * ((geomSum x n : Int) * x + 1) + 1 = (x : Int) ^ n * x := by
        linear_combination (x : Int) * ihz
      zify [hx]
      push_cast [geomSum]
      linear_combination this

theorem div4_modeq {a b m : Nat} (h : a ≡ b [MOD 4 * m]) (ha : a % 4 = 0)
    (hb : b % 4 = 0) : a / 4 ≡ b / 4 [MOD m] := by
  rcases le_total a b with hab | hab
  · obtain ⟨k, hk⟩ := (Nat.modEq_iff_dvd' hab).mp h
    have hk' : b - a = 4 * (m * k) := by rw [hk]; ring
    apply (Nat.modEq_iff_dvd' (by omega)).mpr
    exact ⟨k, by omega⟩
  · obtain ⟨k, hk⟩ := (Nat.modEq_iff_dvd' hab).mp h.symm
    have hk' : a - b = 4 * (m * k) := by rw [hk]; ring
    apply ((Nat.modEq_iff_dvd' (by omega)).mpr ?_).symm
    exact ⟨k, by omega⟩

/-- The `(x^n (wrapping) - 1) >> 2` step recovers `(x - 1)/4` times the
geometric sum, modulo `2 ^ 48`, whenever `x ≡ 1 (mod 4)`. -/
theorem geom_quarter (x : Nat) (hx64 : x < 2 ^ 64) (hx4 : x % 4 = 1) (n : Nat) :
    (x ^ n % 2 ^ 64 - 1) >>> 2 ≡ (x - 1) / 4 * geomSum x n [MOD 2 ^ 48] := by
  have hx1 : 1 ≤ x := by omega
  have hxn1 : 1 ≤ x ^ n := Nat.one_le_pow _ _ (by omega)
  have hxn4 : x ^ n % 4 = 1 := by
    have h := (show x ≡ 1 [MOD 4] by unfold Nat.ModEq; omega).pow n
    unfold Nat.ModEq at h
    simpa using h
  have h64 : x ^ n % 2 ^ 64 % 4 = 1 := by
    have h : x ^ n % 2 ^ 64 ≡ x ^ n [MOD 4] :=
      Nat.ModEq.of_dvd (by norm_num) (Nat.mod_modEq _ _)
    unfold Nat.ModEq at h
    omega
  have hge1 : 1 ≤ x ^ n % 2 ^ 64 := by omega
  have hsub : x ^ n % 2 ^ 64 - 1 ≡ x ^ n - 1 [MOD 2 ^ 64] := by
    apply Nat.ModEq.add_right_cancel' 1
    rw [Nat.sub_add_cancel hge1, Nat.sub_add_cancel hxn1]
    exact Nat.mod_modEq (x ^ n) (2 ^ 64)
  have hdiv : (x ^ n % 2 ^ 64 - 1) / 4 ≡ (x ^ n - 1) / 4 [MOD 2 ^ 62] := by
    apply div4_modeq _ (by omega) (by omega)
    have : (4 : Nat) * 2 ^ 62 = 2 ^ 64 := by norm_num
    rw [this]
    exact hsub
  have hexact : (x ^ n - 1) / 4 = (x - 1) / 4 * geomSum x n := by
    have hg := geomSum_mul x hx1 n
    obtain ⟨u, hu⟩ : (4 : Nat) ∣ x - 1 := by omega
    have hxn : x ^ n - 1 = (x - 1) * geomSum x n := by omega
    rw [hxn, hu, mul_assoc, Nat.mul_div_cancel_left _ (by norm_num),
      Nat.mul_div_cancel_left _ (by norm_num)]
  rw [Nat.shiftRight_eq_div_pow, show (2 : Nat) ^ 2 = 4 from rfl, ← hexact]
  exact Nat.ModEq.of_dvd (by norm_num) hdiv

/-! #### Casting the LCG operations into `ZMod (2 ^ 48)` -/

theorem cast48_two_pow_64 : ((2 ^ 64 : Nat) : ZMod (2 ^ 48)) = 0 := by
  rw [show (2 ^ 64 : Nat) = 2 ^ 48 * 2 ^ 16 from by norm_num, Nat.cast_mul,
    ZMod.natCast_self, zero_mul]

theorem cast48_mod64 (x : Nat) : ((x % 2 ^ 64 : Nat) : ZMod (2 ^ 48)) = x := by
  conv_rhs => rw [← Nat.div_add_mod x (2 ^ 64)]
  rw [Nat.cast_add, Nat.cast_mul, cast48_two_pow_64, zero_mul, zero_add]

theorem cast48_mod48 (x : Nat) : ((x % 2 ^ 48 : Nat) : ZMod (2 ^ 48)) = x := by
  conv_rhs => rw [← Nat.div_add_mod x (2 ^ 48)]
  rw [Nat.cast_add, Nat.cast_mul, ZMod.natCast_self, zero_mul, zero_add]

theorem cast48_land (x : Nat) : ((x &&& mask 48 : Nat) : ZMod (2 ^ 48)) = x := by
  rw [land_mask]; exact cast48_mod48 x

theorem cast48_wsub (a b : Nat) :
    ((wrapping_sub64 a b : Nat) : ZMod (2 ^ 48)) = (a : ZMod (2 ^ 48)) - b := by
  unfold wrapping_sub64
  rw [cast48_mod64, Nat.cast_add,
    Nat.cast_sub (Nat.le_of_lt (Nat.mod_lt _ (by norm_num))),
    cast48_two_pow_64, cast48_mod64]
  ring

theorem cast48_next_state (s : Nat) :
    ((next_state s : Nat) : ZMod (2 ^ 48)) = s * A + C := by
  unfold next_state
  rw [cast48_mod64]
  push_cast
  ring

theorem cast48_previous_state (s : Nat) :
    ((previous_state s : Nat) : ZMod (2 ^ 48)) =
      ((s : ZMod (2 ^ 48)) - C) * INV_A := by
  unfold previous_state
  rw [cast48_land, cast48_mod64, Nat.cast_mul, cast48_wsub]

theorem AD_one : ((A : Nat) : ZMod (2 ^ 48)) * (INV_A : Nat) = 1 := by
  have h : (A * INV_A) % 2 ^ 48 = 1 := by decide
  calc ((A : Nat) : ZMod (2 ^ 48)) * (INV_A : Nat)
      = ((A * INV_A : Nat) : ZMod (2 ^ 48)) := by push_cast; ring
    _ = (((A * INV_A) % 2 ^ 48 : Nat) : ZMod (2 ^ 48)) := (cast48_mod48 _).symm
    _ = 1 := by rw [h]; norm_num

theorem iterate_next_cast (n s : Nat) :
    ((next_state^[n] s : Nat) : ZMod (2 ^ 48)) =
      ((A : Nat) : ZMod (2 ^ 48)) ^ n * s + C * geomSum A n := by
  induction n with
  | zero => simp [geomSum]
  | succ n ih =>
      rw [Function.iterate_succ_apply', cast48_next_state, ih]
      push_cast [geomSum]
      ring

theorem iterate_prev_cast (n s : Nat) :
    ((previous_state^[n] s : Nat) : ZMod (2 ^ 48)) =
      ((INV_A : Nat) : ZMod (2 ^ 48)) ^ n * s - C * INV_A * geomSum INV_A n := by
  induction n with
  | zero => simp [geomSum]
  | succ n ih =>
      rw [Function.iterate_succ_apply', cast48_previous_state, ih]
      push_cast [geomSum]
      ring

theorem next_n_calls_cast (n s : Nat) :
    ((next_n_calls n s : Nat) : ZMod (2 ^ 48)) =
      ((A : Nat) : ZMod (2 ^ 48)) ^ n * s + C * geomSum A n := by
  simp only [next_n_calls]
  split_ifs with h0 h1
  · subst h0; simp [geomSum]
  · subst h1
    rw [cast48_next_state]
    push_cast [geomSum]
    ring
  · rw [pow_wrapping_eq A n (by decide)]
    have hq := geom_quarter A (by decide) (by decide) n
    have hqc : (((A ^ n % 2 ^ 64 - 1) >>> 2 : Nat) : ZMod (2 ^ 48)) =
        (((A - 1) / 4 * geomSum A n : Nat) : ZMod (2 ^ 48)) :=
      (ZMod.natCast_eq_natCast_iff _ _ _).mpr hq
    have hu1 : (((A - 1) / 4 * INV_A_1 : Nat) : ZMod (2 ^ 48)) = 1 := by
      have h : ((A - 1) / 4 * INV_A_1) % 2 ^ 48 = 1 := by decide
      rw [← cast48_mod48, h]; norm_num
    have e1 : ((s * (A ^ n % 2 ^ 64) % 2 ^ 64 : Nat) : ZMod (2 ^ 48)) =
        (s : ZMod (2 ^ 48)) * ((A : Nat) : ZMod (2 ^ 48)) ^ n := by
      rw [cast48_mod64, Nat.cast_mul, cast48_mod64, Nat.cast_pow]
    have e2 : ((C * ((A ^ n % 2 ^ 64 - 1) >>> 2 * INV_A_1 % 2 ^ 64) % 2 ^ 64 : Nat) :
        ZMod (2 ^ 48)) = ((C : Nat) : ZMod (2 ^ 48)) * geomSum A n := by
      rw [cast48_mod64, Nat.cast_mul, cast48_mod64, Nat.cast_mul, hqc]
      push_cast at hu1 ⊢
      calc ((C : Nat) : ZMod (2 ^ 48)) *
            ((((A - 1) / 4 : Nat) : ZMod (2 ^ 48)) * (geomSum A n : Nat) * INV_A_1)
          = ((C : Nat) : ZMod (2 ^ 48)) * ((geomSum A n : Nat) *
              ((((A - 1) / 4 : Nat) : ZMod (2 ^ 48)) * INV_A_1)) := by ring
        _ = ((C : Nat) : ZMod (2 ^ 48)) * geomSum A n := by rw [hu1, mul_one]
    rw [cast48_mod64, Nat.cast_add, e1, e2]
    ring

theorem previous_n_calls_cast (n s : Nat) :
    ((previous_n_calls n s : Nat) : ZMod (2 ^ 48)) =
      ((INV_A : Nat) : ZMod (2 ^ 48)) ^ n * s - C * INV_A * geomSum INV_A n := by
  simp only [previous_n_calls]
  split_ifs with h0 h1 h2
  · subst h0; simp [geomSum]
  · subst h1
    rw [cast48_previous_state]
    push_cast [geomSum]
    ring
  · subst h2
    unfold previous_2
    rw [cast48_mod64, Nat.cast_mul, cast48_wsub, cast48_mod64, Nat.cast_mul, cast48_wsub]
    push_cast [geomSum]
    ring
  · rw [pow_wrapping_eq INV_A n (by decide)]
    have hq := geom_quarter INV_A (by decide) (by decide) n
    have hqc : (((INV_A ^ n % 2 ^ 64 - 1) >>> 2 : Nat) : ZMod (2 ^ 48)) =
        (((INV_A - 1) / 4 * geomSum INV_A n : Nat) : ZMod (2 ^ 48)) :=
      (ZMod.natCast_eq_natCast_iff _ _ _).mpr hq
    have hu1 : (((INV_A - 1) / 4 * INV__INV_A__1 : Nat) : ZMod (2 ^ 48)) = 1 := by
      have h : ((INV_A - 1) / 4 * INV__INV_A__1) % 2 ^ 48 = 1 := by decide
      rw [← cast48_mod48, h]; norm_num
    have e1 : ((s * (INV_A ^ n % 2 ^ 64) % 2 ^ 64 : Nat) : ZMod (2 ^ 48)) =
        (s : ZMod (2 ^ 48)) * ((INV_A : Nat) : ZMod (2 ^ 48)) ^ n := by
      rw [cast48_mod64, Nat.cast_mul, cast48_mod64, Nat.cast_pow]
    have e2 : ((C * INV_A % 2 ^ 64 *
          ((INV_A ^ n % 2 ^ 64 - 1) >>> 2 * INV__INV_A__1 % 2 ^ 64) % 2 ^ 64 : Nat) :
        ZMod (2 ^ 48)) =
        ((C : Nat) : ZMod (2 ^ 48)) * INV_A * geomSum INV_A n := by
      rw [cast48_mod64, Nat.cast_mul, cast48_mod64, cast48_mod64, Nat.cast_mul,
        Nat.cast_mul, hqc]
      push_cast at hu1 ⊢
      calc ((C : Nat) : ZMod (2 ^ 48)) * INV_A *
            ((((INV_A - 1) / 4 : Nat) : ZMod (2 ^ 48)) * (geomSum INV_A n : Nat) *
              INV__INV_A__1)
          = ((C : Nat) : ZMod (2 ^ 48)) * INV_A * ((geomSum INV_A n : Nat) *
              ((((INV_A - 1) / 4 : Nat) : ZMod (2 ^ 48)) * INV__INV_A__1)) := by ring
        _ = ((C : Nat) : ZMod (2 ^ 48)) * INV_A * geomSum INV_A n := by rw [hu1, mul_one]
    rw [cast48_wsub, e1, e2]
    ring

theorem cast48_prev_next (s : Nat) :
    ((previous_state (next_state s) : Nat) : ZMod (2 ^ 48)) = s := by
  rw [cast48_previous_state, cast48_next_state]
  linear_combination (s : ZMod (2 ^ 48)) * AD_one

theorem cast48_prev_iter_congr (n : Nat) {x y : Nat}
    (h : (x : ZMod (2 ^ 48)) = y) :
    ((previous_state^[n] x : Nat) : ZMod (2 ^ 48)) = previous_state^[n] y := by
  induction n with
  | zero => exact h
  | succ n ih =>
      rw [Function.iterate_succ_apply', Function.iterate_succ_apply',
        cast48_previous_state, cast48_previous_state, ih]

theorem cast48_iter_cancel (n s : Nat) :
    ((previous_state^[n] (next_state^[n] s) : Nat) : ZMod (2 ^ 48)) = s := by
  induction n with
  | zero => rfl
  | succ n ih =>
      rw [Function.iterate_succ_apply' (f := next_state),
        Function.iterate_succ_apply (f := previous_state)]
      calc ((previous_state^[n] (previous_state (next_state (next_state^[n] s))) : Nat) :
            ZMod (2 ^ 48))
          = ((previous_state^[n] (next_state^[n] s) : Nat) : ZMod (2 ^ 48)) :=
            cast48_prev_iter_congr n (cast48_prev_next _)
        _ = s := ih

theorem get_seed_eq_of_cast48 {x y : Nat} (h : (x : ZMod (2 ^ 48)) = y) :
    get_seed x = get_seed y := by
  have hmod : x % 2 ^ 48 = y % 2 ^ 48 := (ZMod.natCast_eq_natCast_iff x y (2 ^ 48)).mp h
  unfold get_seed
  rw [land_mask, land_mask]
  apply Nat.eq_of_testBit_eq
  intro i
  rw [Nat.testBit_mod_two_pow, Nat.testBit_mod_two_pow, Nat.testBit_xor, Nat.testBit_xor]
  by_cases hi : i < 48
  · have hxy : x.testBit i = y.testBit i := by
      have hx : (x % 2 ^ 48).testBit i = (y % 2 ^ 48).testBit i :=
        congrArg (fun t => t.testBit i) hmod
      rw [Nat.testBit_mod_two_pow, Nat.testBit_mod_two_pow, decide_eq_true hi,
        Bool.true_and, Bool.true_and] at hx
      exact hx
    rw [hxy]
  · simp [hi]

theorem odd_pow_lift (x : Nat) (hodd : x % 2 = 1) (k : Nat) :
    x ^ 2 ^ (k + 1) ≡ 1 [MOD 2 ^ (k + 3)] := by
  induction k with
  | zero =>
      obtain ⟨j, hj⟩ := Nat.even_mul_succ_self (x / 2)
      have hx2 : x ^ 2 = 8 * j + 1 := by
        have h4 : x ^ 2 = 4 * (x / 2 * (x / 2 + 1)) + 1 := by
          conv_lhs => rw [show x = 2 * (x / 2) + 1 from by omega]
          ring
        rw [hj] at h4
        omega
      show x ^ 2 ^ (0 + 1) % 2 ^ (0 + 3) = 1 % 2 ^ (0 + 3)
      norm_num
      omega
  | succ k ih =>
      have hpow : x ^ 2 ^ (k + 2) = (x ^ 2 ^ (k + 1)) ^ 2 := by
        rw [← pow_mul, ← pow_succ]
      have hy : x ^ 2 ^ (k + 1) % 2 ^ (k + 3) = 1 := by
        have h : x ^ 2 ^ (k + 1) % 2 ^ (k + 3) = 1 % 2 ^ (k + 3) := ih
        have h1 : (1 : Nat) % 2 ^ (k + 3) = 1 :=
          Nat.mod_eq_of_lt (Nat.one_lt_pow (by omega) (by omega))
        rw [h1] at h
        exact h
      have hyd : x ^ 2 ^ (k + 1) = 2 ^ (k + 3) * (x ^ 2 ^ (k + 1) / 2 ^ (k + 3)) + 1 := by
        conv_lhs => rw [← Nat.div_add_mod (x ^ 2 ^ (k + 1)) (2 ^ (k + 3))]
        rw [hy]
      have hM2 : (2 ^ (k + 3) : Nat) * 2 ^ (k + 3) = 2 ^ (k + 4) * 2 ^ (k + 2) := by
        rw [← pow_add, ← pow_add]
        congr 1
        omega
      have h2M : (2 : Nat) * 2 ^ (k + 3) = 2 ^ (k + 4) := (pow_succ' 2 (k + 3)).symm
      have hysq : (x ^ 2 ^ (k + 1)) ^ 2 =
          2 ^ (k + 4) * (2 ^ (k + 2) * (x ^ 2 ^ (k + 1) / 2 ^ (k + 3)) ^ 2 +
            (x ^ 2 ^ (k + 1) / 2 ^ (k + 3))) + 1 := by
        calc (x ^ 2 ^ (k + 1)) ^ 2
            = 2 ^ (k + 3) * 2 ^ (k + 3) * (x ^ 2 ^ (k + 1) / 2 ^ (k + 3)) ^ 2 +
              2 * 2 ^ (k + 3) * (x ^ 2 ^ (k + 1) / 2 ^ (k + 3)) + 1 := by
              conv_lhs => rw [hyd]
              ring
          _ = _ := by rw [hM2, h2M]; ring
      show x ^ 2 ^ (k + 1 + 1) % 2 ^ (k + 1 + 3) = 1 % 2 ^ (k + 1 + 3)
      have hk1 : k + 1 + 1 = k + 2 := rfl
      have hk3 : k + 1 + 3 = k + 4 := rfl
      rw [hk1, hk3, hpow, hysq, Nat.mul_add_mod]

/-- The state update of `previous_n_calls` is the identity modulo
`2 ^ 48` whenever the wrapped power `dn` is `1` modulo `2 ^ 50` (the
two guard bits make the quarter of `dn - 1` a multiple of `2 ^ 48`). -/
theorem prev_n_calls_big_cast (s dn : Nat) (h : dn ≡ 1 [MOD 2 ^ 50]) :
    ((wrapping_sub64 (s * dn % 2 ^ 64)
        (C * INV_A % 2 ^ 64 * ((dn - 1) >>> 2 * INV__INV_A__1 % 2 ^ 64) % 2 ^ 64) :
      Nat) : ZMod (2 ^ 48)) = s := by
  have hone : (1 : Nat) % 2 ^ 50 = 1 := by norm_num
  have hge : 1 ≤ dn := by
    have h1 := h
    unfold Nat.ModEq at h1
    omega
  obtain ⟨k, hk⟩ : (2 : Nat) ^ 50 ∣ dn - 1 := by
    have h1 := h
    unfold Nat.ModEq at h1
    omega
  have hquarter : (dn - 1) >>> 2 = 2 ^ 48 * k := by
    rw [Nat.shiftRight_eq_div_pow, hk, show (2 : Nat) ^ 2 = 4 from by norm_num,
      show (2 : Nat) ^ 50 * k = 4 * (2 ^ 48 * k) from by ring]
    exact Nat.mul_div_cancel_left _ (by norm_num)
  have hdes0 : (((dn - 1) >>> 2 * INV__INV_A__1 % 2 ^ 64 : Nat) : ZMod (2 ^ 48)) = 0 := by
    rw [cast48_mod64, hquarter, Nat.cast_mul, Nat.cast_mul, ZMod.natCast_self,
      zero_mul, zero_mul]
  have hdn1 : ((dn : Nat) : ZMod (2 ^ 48)) = 1 := by
    have h48 : dn ≡ 1 [MOD 2 ^ 48] := Nat.ModEq.of_dvd (by norm_num) h
    rw [(ZMod.natCast_eq_natCast_iff _ _ _).mpr h48]
    exact Nat.cast_one
  have e1 : ((s * dn % 2 ^ 64 : Nat) : ZMod (2 ^ 48)) = (s : ZMod (2 ^ 48)) := by
    rw [cast48_mod64, Nat.cast_mul, hdn1, mul_one]
  have e2 : ((C * INV_A % 2 ^ 64 *
        ((dn - 1) >>> 2 * INV__INV_A__1 % 2 ^ 64) % 2 ^ 64 : Nat) : ZMod (2 ^ 48)) = 0 := by
    rw [cast48_mod64, Nat.cast_mul, hdes0, mul_zero]
  rw [cast48_wsub, e1, e2, sub_zero]

/-- C4.  For every starting seed and every `n < 2 ^ 48`, calling
`JavaRng::next_n_calls(n)` followed by `JavaRng::previous_n_calls(n)`
restores the original 48-bit seed (`get_seed` is unchanged); moreover
`previous_n_calls(2 ^ 48)` alone is the identity on the 48-bit seed. -/
theorem next_n_then_previous_n_restores (s n : Nat) (hn : n < 2 ^ 48) :
    get_seed (previous_n_calls n (next_n_calls n s)) = get_seed s ∧
    get_seed (previous_n_calls (2 ^ 48) s) = get_seed s := by
  constructor
  · apply get_seed_eq_of_cast48
    have h1 : ((next_n_calls n s : Nat) : ZMod (2 ^ 48)) =
        ((next_state^[n] s : Nat) : ZMod (2 ^ 48)) := by
      rw [next_n_calls_cast, iterate_next_cast]
    calc ((previous_n_calls n (next_n_calls n s) : Nat) : ZMod (2 ^ 48))
        = ((INV_A : Nat) : ZMod (2 ^ 48)) ^ n * (next_n_calls n s) -
            C * INV_A * geomSum INV_A n := previous_n_calls_cast _ _
      _ = ((INV_A : Nat) : ZMod (2 ^ 48)) ^ n * ((next_state^[n] s : Nat) :
            ZMod (2 ^ 48)) - C * INV_A * geomSum INV_A n := by rw [h1]
      _ = ((previous_state^[n] (next_state^[n] s) : Nat) : ZMod (2 ^ 48)) :=
            (iterate_prev_cast _ _).symm
      _ = s := cast48_iter_cancel n s
  · apply get_seed_eq_of_cast48
    have hlift : INV_A ^ 2 ^ 48 ≡ 1 [MOD 2 ^ 50] := by
      simpa using odd_pow_lift INV_A (by decide) 47
    have hdn50 : INV_A ^ 2 ^ 48 % 2 ^ 64 ≡ 1 [MOD 2 ^ 50] :=
      ((Nat.ModEq.of_dvd (by norm_num) (Nat.mod_modEq _ _))).trans hlift
    simp only [previous_n_calls]
    rw [if_neg (by norm_num), if_neg (by norm_num), if_neg (by norm_num),
      pow_wrapping_eq INV_A (2 ^ 48) (by decide)]
    exact prev_n_calls_big_cast s (INV_A ^ 2 ^ 48 % 2 ^ 64) hdn50

/-- Witness for C4 at seed 777 and `n = 3`. -/
theorem next_n_then_previous_n_restores_witness :
    3 < 2 ^ 48 ∧
    (get_seed (previous_n_calls 3 (next_n_calls 3 777)) = get_seed 777 ∧
     get_seed (previous_n_calls (2 ^ 48) 777) = get_seed 777) :=
  ⟨by decide, next_n_then_previous_n_restores 777 3 (by decide)⟩

end SlimeSeed.JavaRng

namespace SlimeSeed

/-! ### Lemmas about foldMinMax -/

theorem foldMinMax_spec (c : List Point) (xm zm xM zM : Int) :
    let r := foldMinMax c xm zm xM zM
    (r.1 ≤ xm ∧ r.2.1 ≤ zm ∧ xM ≤ r.2.2.1 ∧ zM ≤ r.2.2.2) ∧
    (∀ p ∈ c, r.1 ≤ p.1 ∧ r.2.1 ≤ p.2 ∧ p.1 ≤ r.2.2.1 ∧ p.2 ≤ r.2.2.2) ∧
    ((r.1 = xm ∨ ∃ p ∈ c, r.1 = p.1) ∧ (r.2.1 = zm ∨ ∃ p ∈ c, r.2.1 = p.2) ∧
     (r.2.2.1 = xM ∨ ∃ p ∈ c, r.2.2.1 = p.1) ∧
     (r.2.2.2 = zM ∨ ∃ p ∈ c, r.2.2.2 = p.2)) := by
  induction c generalizing xm zm xM zM with
  | nil =>
      refine ⟨⟨le_refl _, le_refl _, le_refl _, le_refl _⟩, ?_, ?_⟩
      · intro p hp; cases hp
      · exact ⟨Or.inl rfl, Or.inl rfl, Or.inl rfl, Or.inl rfl⟩
  | cons q t ih =>
      obtain ⟨x, z⟩ := q
      simp only [foldMinMax]
      have h := ih (min xm x) (min zm z) (max xM x) (max zM z)
      obtain ⟨⟨h1, h2, h3, h4⟩, hmem, hat⟩ := h
      refine ⟨⟨le_trans h1 (min_le_left _ _), le_trans h2 (min_le_left _ _),
              le_trans (le_max_left _ _) h3, le_trans (le_max_left _ _) h4⟩, ?_, ?_⟩
      · intro p hp
        rcases List.mem_cons.mp hp with hp | hp
        · subst hp
          exact ⟨le_trans h1 (min_le_right _ _), le_trans h2 (min_le_right _ _),
                 le_trans (le_max_right _ _) h3, le_trans (le_max_right _ _) h4⟩
        · exact hmem p hp
      · obtain ⟨ha1, ha2, ha3, ha4⟩ := hat
        refine ⟨?_, ?_, ?_, ?_⟩
        · rcases ha1 with h | ⟨p, hp, he⟩
          · rcases le_total xm x with hle | hle
            · left; rw [h, min_eq_left hle]
            · right; exact ⟨(x, z), List.mem_cons_self .., by rw [h, min_eq_right hle]⟩
          · exact Or.inr ⟨p, List.mem_cons_of_mem _ hp, he⟩
        · rcases ha2 with h | ⟨p, hp, he⟩
          · rcases le_total zm z with hle | hle
            · left; rw [h, min_eq_left hle]
            · right; exact ⟨(x, z), List.mem_cons_self .., by rw [h, min_eq_right hle]⟩
          · exact Or.inr ⟨p, List.mem_cons_of_mem _ hp, he⟩
        · rcases ha3 with h | ⟨p, hp, he⟩
          · rcases le_total x xM with hle | hle
            · left; rw [h, max_eq_left hle]
            · right; exact ⟨(x, z), List.mem_cons_self .., by rw [h, max_eq_right hle]⟩
          · exact Or.inr ⟨p, List.mem_cons_of_mem _ hp, he⟩
        · rcases ha4 with h | ⟨p, hp, he⟩
          · rcases le_total z zM with hle | hle
            · left; rw [h, max_eq_left hle]
            · right; exact ⟨(x, z), List.mem_cons_self .., by rw [h, max_eq_right hle]⟩
          · exact Or.inr ⟨p, List.mem_cons_of_mem _ hp, he⟩

theorem wrap64_eq_self {v : Int} (h1 : -2 ^ 63 ≤ v) (h2 : v < 2 ^ 63) :
    wrap64 v = v := by
  unfold wrap64; omega

theorem toSigned64_eq_self {w : Nat} (h : w < 2 ^ 63) : toSigned64 w = w := by
  unfold toSigned64
  rw [Nat.mod_eq_of_lt (by omega), if_pos (by omega)]

/-- C10 counterexample.  The claim asserts that `Area::contains` holds
for every input point of `Area::from_coords` with no restriction on the
coordinates, but the `self.x + self.w as i64` addition inside `contains`
is a wrapping `i64` addition: the bounding box of the single point
`(2^63 - 1, 0)` (the largest `i64`) is `{x: 2^63 - 1, w: 1, ...}`, and
its upper x-bound `2^63 - 1 + 1` wraps to `-2^63`, so the box does not
contain its own defining point. -/
theorem from_coords_contains_wraps :
    (Area.from_coords [((2 ^ 63 - 1 : Int), 0)]).contains (2 ^ 63 - 1) 0 = false := by
  decide

/-- C10 as amended.  `Area::from_coords` on an empty point collection
returns the empty area `{x: 0, z: 0, w: 0, h: 0}`; on a non-empty
collection whose coordinates lie strictly between `-2^62` and `2^62`
(so that none of the wrapping `i64` computations in `from_coords` or
`contains` can wrap) it returns the minimal bounding box (origin is the
coordinate-wise minimum, extents reach exactly to the coordinate-wise
maximum), and `Area::contains` holds for every input point. -/
theorem from_coords_bounding_box :
    Area.from_coords [] = { x := 0, z := 0, w := 0, h := 0 } ∧
    ∀ (c0 : Point) (c : List Point),
      (∀ p ∈ c0 :: c, -2 ^ 62 < p.1 ∧ p.1 < 2 ^ 62 ∧ -2 ^ 62 < p.2 ∧ p.2 < 2 ^ 62) →
      let l := c0 :: c
      let a := Area.from_coords l
      (∀ p ∈ l, a.x ≤ p.1 ∧ a.z ≤ p.2) ∧
      (∃ p ∈ l, p.1 = a.x) ∧ (∃ p ∈ l, p.2 = a.z) ∧
      (∃ p ∈ l, (a.w : Int) = p.1 - a.x + 1 ∧ ∀ q ∈ l, q.1 ≤ p.1) ∧
      (∃ p ∈ l, (a.h : Int) = p.2 - a.z + 1 ∧ ∀ q ∈ l, q.2 ≤ p.2) ∧
      (∀ p ∈ l, a.contains p.1 p.2 = true) := by
  refine ⟨rfl, ?_⟩
  intro c0 c hbnd
  obtain ⟨⟨hi1, hi2, hi3, hi4⟩, hmem, ha1, ha2, ha3, ha4⟩ :=
    foldMinMax_spec c c0.1 c0.2 c0.1 c0.2
  set r := foldMinMax c c0.1 c0.2 c0.1 c0.2 with hr
  have hbound : ∀ p ∈ c0 :: c, r.1 ≤ p.1 ∧ r.2.1 ≤ p.2 ∧ p.1 ≤ r.2.2.1 ∧ p.2 ≤ r.2.2.2 := by
    intro p hp
    rcases List.mem_cons.mp hp with hp | hp
    · subst hp; exact ⟨hi1, hi2, hi3, hi4⟩
    · exact hmem p hp
  have hxm : r.1 ≤ r.2.2.1 := le_trans hi1 hi3
  have hzm : r.2.1 ≤ r.2.2.2 := le_trans hi2 hi4
  have hxmem : ∃ p ∈ c0 :: c, p.1 = r.1 := by
    rcases ha1 with h | ⟨p, hp, he⟩
    · exact ⟨c0, List.mem_cons_self .., h.symm⟩
    · exact ⟨p, List.mem_cons_of_mem _ hp, he.symm⟩
  have hzmem : ∃ p ∈ c0 :: c, p.2 = r.2.1 := by
    rcases ha2 with h | ⟨p, hp, he⟩
    · exact ⟨c0, List.mem_cons_self .., h.symm⟩
    · exact ⟨p, List.mem_cons_of_mem _ hp, he.symm⟩
  have hXmem : ∃ p ∈ c0 :: c, p.1 = r.2.2.1 := by
    rcases ha3 with h | ⟨p, hp, he⟩
    · exact ⟨c0, List.mem_cons_self .., h.symm⟩
    · exact ⟨p, List.mem_cons_of_mem _ hp, he.symm⟩
  have hZmem : ∃ p ∈ c0 :: c, p.2 = r.2.2.2 := by
    rcases ha4 with h | ⟨p, hp, he⟩
    · exact ⟨c0, List.mem_cons_self .., h.symm⟩
    · exact ⟨p, List.mem_cons_of_mem _ hp, he.symm⟩
  have hbr1 : -2 ^ 62 < r.1 ∧ r.1 < 2 ^ 62 := by
    obtain ⟨p, hp, he⟩ := hxmem
    have := hbnd p hp
    omega
  have hbr2 : -2 ^ 62 < r.2.1 ∧ r.2.1 < 2 ^ 62 := by
    obtain ⟨p, hp, he⟩ := hzmem
    have := hbnd p hp
    omega
  have hbr3 : -2 ^ 62 < r.2.2.1 ∧ r.2.2.1 < 2 ^ 62 := by
    obtain ⟨p, hp, he⟩ := hXmem
    have := hbnd p hp
    omega
  have hbr4 : -2 ^ 62 < r.2.2.2 ∧ r.2.2.2 < 2 ^ 62 := by
    obtain ⟨p, hp, he⟩ := hZmem
    have := hbnd p hp
    omega
  have hwcast : ((((r.2.2.1 - r.1 + 1) % (2 ^ 64 : Int)).toNat : Int)) =
      r.2.2.1 - r.1 + 1 := by omega
  have hhcast : ((((r.2.2.2 - r.2.1 + 1) % (2 ^ 64 : Int)).toNat : Int)) =
      r.2.2.2 - r.2.1 + 1 := by omega
  refine ⟨?_, ?_, ?_, ?_, ?_, ?_⟩
  · intro p hp; exact ⟨(hbound p hp).1, (hbound p hp).2.1⟩
  · exact hxmem
  · exact hzmem
  · obtain ⟨p, hp, he⟩ := hXmem
    exact ⟨p, hp, by simp only [Area.from_coords]; rw [hwcast, he], fun q hq => by
      rw [he]; exact (hbound q hq).2.2.1⟩
  · obtain ⟨p, hp, he⟩ := hZmem
    exact ⟨p, hp, by simp only [Area.from_coords]; rw [hhcast, he], fun q hq => by
      rw [he]; exact (hbound q hq).2.2.2⟩
  · intro p hp
    obtain ⟨b1, b2, b3, b4⟩ := hbound p hp
    simp only [Area.from_coords, Area.contains, Bool.and_eq_true, decide_eq_true_eq,
      ge_iff_le]
    rw [← hr]
    have hw' : toSigned64 (((r.2.2.1 - r.1 + 1) % (2 ^ 64 : Int)).toNat) =
        r.2.2.1 - r.1 + 1 := by
      rw [toSigned64_eq_self (by omega)]
      omega
    have hh' : toSigned64 (((r.2.2.2 - r.2.1 + 1) % (2 ^ 64 : Int)).toNat) =
        r.2.2.2 - r.2.1 + 1 := by
      rw [toSigned64_eq_self (by omega)]
      omega
    rw [hw', hh', wrap64_eq_self (by omega) (by omega),
      wrap64_eq_self (by omega) (by omega)]
    refine ⟨⟨⟨b1, ?_⟩, b2⟩, ?_⟩ <;> omega

/-- Witness for C10's amended theorem: the bounding box of a concrete
point list with small coordinates. -/
theorem from_coords_bounding_box_witness :
    ∃ p ∈ [((3 : Int), (-2 : Int)), (0, 5)],
      p.1 = (Area.from_coords [((3 : Int), (-2 : Int)), (0, 5)]).x :=
  (from_coords_bounding_box.2 (3, -2) [(0, 5)] (by decide)).2.1

/-! ### C9: treasure-map shade variants -/

/-- C9 counterexample.  The claim states
`color_variant_channel(c, v) = c * [180, 220, 255, 135][v] / 256` in
exact integer arithmetic; at `c = 1`, `v = 0` the code returns
`(1 * 180 + 128) / 256 = 1` while the claimed formula gives
`180 / 256 = 0`. -/
theorem color_variant_channel_not_floor :
    color_variant_channel 1 0 ≠ 1 * 180 / 256 := by decide

/-- C9 as amended: each of the four treasure-map shade variants scales
every RGB channel as `(channel * {180, 220, 255, 135}[variant] + 128) / 256`,
i.e. with rounding to the nearest integer rather than truncation. -/
theorem color_variant_channel_rounds (c v : Nat) (hc : c < 256) (hv : v < 4) :
    color_variant_channel c v = (c * ([180, 220, 255, 135].getD v 0) + 128) / 256 := by
  have hlt : ∀ m : Nat, m ≤ 255 → (c * m + 128) / 256 % 256 = (c * m + 128) / 256 := by
    intro m hm
    apply Nat.mod_eq_of_lt
    have : c * m + 128 < 256 * 256 := by
      have : c * m ≤ 255 * 255 := Nat.mul_le_mul (by omega) hm
      omega
    omega
  interval_cases v <;>
    simp only [color_variant_channel, List.getD, List.getElem?_cons_zero,
      List.getElem?_cons_succ, Option.getD_some] <;>
    first
      | exact hlt 180 (by omega)
      | exact hlt 220 (by omega)
      | exact hlt 255 (by omega)
      | exact hlt 135 (by omega)

/-- Witness for C9's amended theorem at channel 7, variant 2. -/
theorem color_variant_channel_rounds_witness :
    7 < 256 ∧ 2 < 4 ∧
      color_variant_channel 7 2 = (7 * ([180, 220, 255, 135].getD 2 0) + 128) / 256 :=
  ⟨by decide, by decide, color_variant_channel_rounds 7 2 (by decide) (by decide)⟩

end SlimeSeed
